import Mathlib

/-!
Shallow embedding of the mikan validator node (block-production and
proposal-dissemination pipeline) and proofs of the specification claims.

Byte strings are modelled as `List Nat` (each element a byte value).
Cryptographic primitives (Keccak-256, SHA3-256, Ed25519) are opaque to the
program logic, so they are passed in as an explicit `Crypto` record of
functions; every theorem quantifies over them.
-/

namespace Mikan

/-- A byte string. -/
abbrev Bytes := List Nat

/-- Rust `Round`: either `Nil` or a non-negative 32-bit round number
(`malachitebft_core_types::Round`). -/
inductive MRound where
  | nil : MRound
  | val (r : Nat) : MRound
deriving DecidableEq, Repr

/-- `Round::as_i64`: `Nil` is `-1`, a concrete round is its number. -/
def MRound.asI64 : MRound → Int
  | .nil => -1
  | .val r => (r : Int)

/-- Big-endian bytes of a 64-bit unsigned integer (`u64::to_be_bytes`). -/
def beBytes8 (n : Nat) : Bytes :=
  [n / 2 ^ 56 % 256, n / 2 ^ 48 % 256, n / 2 ^ 40 % 256, n / 2 ^ 32 % 256,
   n / 2 ^ 24 % 256, n / 2 ^ 16 % 256, n / 2 ^ 8 % 256, n % 256]

/-- Little-endian bytes of a 64-bit unsigned integer (`usize::to_le_bytes`
on a 64-bit platform). -/
def leBytes8 (n : Nat) : Bytes :=
  [n % 256, n / 2 ^ 8 % 256, n / 2 ^ 16 % 256, n / 2 ^ 24 % 256,
   n / 2 ^ 32 % 256, n / 2 ^ 40 % 256, n / 2 ^ 48 % 256, n / 2 ^ 56 % 256]

/-- Big-endian bytes of an `i64` (two's complement, `i64::to_be_bytes`). -/
def beBytesI64 (i : Int) : Bytes :=
  beBytes8 ((i % (2 ^ 64 : Int)).toNat)

/-- The cryptographic primitives used by the node, abstracted as functions:
`keccak` is Keccak-256, `sha3` is SHA3-256, `edVerify pk msg sig` is Ed25519
signature verification, `edSign msg` is signing with the node's own key. -/
structure Crypto where
  keccak : Bytes → Bytes
  sha3 : Bytes → Bytes
  edVerify : Bytes → Bytes → Bytes → Bool
  edSign : Bytes → Bytes

/-- A trivial instantiation of the crypto record, used to evaluate the
embedding on concrete inputs. -/
def trivialCrypto : Crypto where
  keccak := fun _ => []
  sha3 := fun _ => []
  edVerify := fun _ _ _ => true
  edSign := fun _ => []

/-- Crypto record whose hash functions are the identity on byte strings;
used to exhibit hash-input differences as digest differences. -/
def idCrypto : Crypto where
  keccak := id
  sha3 := id
  edVerify := fun _ _ _ => true
  edSign := fun _ => []

/-! ## Transactions and the transaction pool (`src/transactions`) -/

/-- `Transaction` (`src/transactions/mod.rs`): sender/recipient public keys,
signature, value, blob data, nonce, gas price and the cached Keccak-256 hash.
Blobs are byte strings; the Rust field is a fixed array `[Blob; 4]`,
modelled as a list whose length is 4 for every value of the Rust type. -/
structure Transaction where
  signature : Bytes
  txFrom : Bytes
  txTo : Bytes
  value : Nat
  data : List Bytes
  nonce : Nat
  gasPrice : Nat
  hash : Bytes
deriving DecidableEq, Repr

/-- `Transaction::to_bytes`: sender key bytes, recipient key bytes,
big-endian value, the raw bytes of each blob, big-endian nonce,
big-endian gas price. -/
def Transaction.toBytes (tx : Transaction) : Bytes :=
  tx.txFrom ++ tx.txTo ++ beBytes8 tx.value ++ tx.data.flatten
    ++ beBytes8 tx.nonce ++ beBytes8 tx.gasPrice

/-- `Transaction::validate`: the (dead) guard on the fixed-size blob array,
then recompute the Keccak-256 of `to_bytes` and check it against the cached
hash, and verify the sender's signature over the recomputed hash. -/
def Transaction.validate (c : Crypto) (tx : Transaction) : Bool :=
  if tx.data.length > 4 then false
  else
    let h := c.keccak tx.toBytes
    decide (tx.hash = h) && c.edVerify tx.txFrom h tx.signature

/-- `TransactionPool` contents: the `sorted_vec::SortedVec<Transaction>`,
i.e. a vector kept sorted in ascending `Ord` order, where
`impl Ord for Transaction` compares `gas_price` (ascending). -/
abbrev Pool := List Transaction

/-- `SortedVec::push`: insert keeping the vector sorted ascending by the
transaction order (gas price). -/
def poolPush (tx : Transaction) : Pool → Pool
  | [] => [tx]
  | t :: ts => if tx.gasPrice ≤ t.gasPrice then tx :: t :: ts else t :: poolPush tx ts

/-- `TransactionPool::add_transaction`: insert only if `validate()` holds. -/
def addTransaction (c : Crypto) (pool : Pool) (tx : Transaction) : Pool :=
  if tx.validate c then poolPush tx pool else pool

/-- `TransactionPool::get_top_transaction`: if the pool is non-empty,
`drain(..1).next()` removes and returns the first element of the sorted
vector; otherwise `None`. Returns the popped transaction and the remaining
pool. -/
def getTopTransaction : Pool → Option Transaction × Pool
  | [] => (none, [])
  | t :: ts => (some t, ts)

/-! ## Proposal parts and streaming (`src/malachite_types/proposal_part.rs`,
`src/state.rs`) -/

/-- `ProposalPart`: `Init(height, round, proposer)`, `Data(bytes)` or
`Fin(signature)`. Addresses are 20-byte strings. -/
inductive PPart where
  | initP (height : Nat) (round : MRound) (proposer : Bytes) : PPart
  | dataP (bytes : Bytes) : PPart
  | finP (signature : Bytes) : PPart
deriving DecidableEq, Repr

/-- `streaming::ProposalParts`: the reassembled parts of one stream together
with the `Init` metadata (height, round, proposer). -/
structure PParts where
  height : Nat
  round : MRound
  proposer : Bytes
  parts : List PPart
deriving DecidableEq, Repr

/-- `StreamContent`: either a proposal part or the end-of-stream marker. -/
inductive SContent where
  | dataC (part : PPart) : SContent
  | finC : SContent
deriving DecidableEq, Repr

/-- `StreamMessage`: stream id bytes, sequence number, content. -/
structure SMessage where
  streamId : Bytes
  sequence : Nat
  content : SContent
deriving DecidableEq, Repr

/-- `CHUNK_SIZE = 128 * 1024` (128 KiB), the streaming chunk size. -/
def CHUNK_SIZE : Nat := 128 * 1024

/-- `Bytes::chunks(CHUNK_SIZE)`: split a byte string into consecutive chunks
of `CHUNK_SIZE` bytes, the last chunk possibly shorter; the empty string
yields no chunks. -/
def chunksOf (l : Bytes) : List Bytes :=
  if l = [] then [] else l.take CHUNK_SIZE :: chunksOf (l.drop CHUNK_SIZE)
termination_by l.length
decreasing_by
  simp only [List.length_drop]
  have hl : 0 < l.length := List.length_pos.mpr (by assumption)
  have : 0 < CHUNK_SIZE := by decide
  omega

/-! ## Consensus values and the store (`src/store.rs`) -/

/-- `Value::new(data)`: a consensus value is the raw block bytes. -/
abbrev Value := Bytes

/-- The (height, round, value-id) binding of a `CommitCertificate`; only the
height and round are inspected by the embedded code. -/
structure Certificate where
  height : Nat
  round : MRound
deriving DecidableEq, Repr

/-- `ProposedValue<TestContext>`. `validity` is `true` for `Validity::Valid`. -/
structure PValue where
  height : Nat
  round : MRound
  validRound : MRound
  proposer : Bytes
  value : Value
  validity : Bool
deriving DecidableEq, Repr

/-- The five redb tables of `Db` (`src/store.rs`), each modelled as an
association list from its key to the stored (decoded) value. -/
structure StoreModel where
  decidedValues : List (Nat × Value)
  certificates : List (Nat × Certificate)
  undecidedProposals : List ((Nat × MRound) × PValue)
  decidedBlockData : List (Nat × Bytes)
  undecidedBlockData : List ((Nat × MRound) × Bytes)
deriving DecidableEq, Repr

/-- The empty store (all tables created, no entries). -/
def StoreModel.empty : StoreModel := ⟨[], [], [], [], []⟩

/-- Association-list lookup by key. -/
def alookup {κ α : Type} [DecidableEq κ] (l : List (κ × α)) (k : κ) : Option α :=
  (l.find? (fun e => e.1 = k)).map Prod.snd

/-- Association-list overwrite (`redb` `insert` replaces the value at the
key). -/
def ainsert {κ α : Type} [DecidableEq κ] (l : List (κ × α)) (k : κ) (v : α) :
    List (κ × α) :=
  (k, v) :: l.filter (fun e => ¬ e.1 = k)

/-- Association-list insert-if-absent (the `if table.get(&key)?.is_none()`
pattern used for undecided proposals and block data). -/
def ainsertIfAbsent {κ α : Type} [DecidableEq κ] (l : List (κ × α)) (k : κ)
    (v : α) : List (κ × α) :=
  match alookup l k with
  | some _ => l
  | none => (k, v) :: l

/-- `Db::get_undecided_proposal`. -/
def StoreModel.getUndecidedProposal (st : StoreModel) (h : Nat) (r : MRound) :
    Option PValue :=
  alookup st.undecidedProposals (h, r)

/-- `Db::insert_undecided_proposal`: keyed by (height, round) of the
proposal; only inserts when the key is absent. -/
def StoreModel.insertUndecidedProposal (st : StoreModel) (p : PValue) :
    StoreModel :=
  { st with undecidedProposals :=
      ainsertIfAbsent st.undecidedProposals (p.height, p.round) p }

/-- `Db::insert_decided_value`: one write transaction storing the value and
the certificate, both keyed by the certificate's height. -/
def StoreModel.insertDecidedValue (st : StoreModel) (cert : Certificate)
    (v : Value) : StoreModel :=
  { st with
      decidedValues := ainsert st.decidedValues cert.height v
      certificates := ainsert st.certificates cert.height cert }

/-- `Db::insert_undecided_block_data`: insert-if-absent at (height, round). -/
def StoreModel.insertUndecidedBlockData (st : StoreModel) (h : Nat)
    (r : MRound) (data : Bytes) : StoreModel :=
  { st with undecidedBlockData :=
      ainsertIfAbsent st.undecidedBlockData (h, r) data }

/-- `Db::insert_decided_block_data`: insert-if-absent at height. -/
def StoreModel.insertDecidedBlockData (st : StoreModel) (h : Nat)
    (data : Bytes) : StoreModel :=
  { st with decidedBlockData := ainsertIfAbsent st.decidedBlockData h data }

/-- `Db::get_block_data`: try undecided block data at (height, round) first,
then decided block data at the height. -/
def StoreModel.getBlockData (st : StoreModel) (h : Nat) (r : MRound) :
    Option Bytes :=
  match alookup st.undecidedBlockData (h, r) with
  | some d => some d
  | none => alookup st.decidedBlockData h

/-- `Db::get_decided_block`: decided block data at the height. -/
def StoreModel.getDecidedBlock (st : StoreModel) (h : Nat) : Option Bytes :=
  alookup st.decidedBlockData h

/-- Modelled from the spec: the key encoding of the undecided tables
(`src/tables/keys.rs` is not in the source tree). The spec says keys are
packed fixed-width big-endian integers, height then round, and that
`prune` must "delete every undecided key with height < retain_height"; the
code scans the half-open range `..(retain_height, Round::Nil)`, so a key
`(h, r)` is in the pruned range exactly when `h < retain_height` (`Nil`
is the least round in the key order). -/
def undecidedKeyBelow (k : Nat × MRound) (retain : Nat) : Bool :=
  k.1 < retain

/-- `Db::prune` (`src/store.rs` lines 263-301): one write transaction that
removes every undecided-proposal and undecided-block-data key in the range
below `(retain_height, Round::Nil)`, then collects the decided-values keys
below `retain_height` and removes each of them from the decided-values,
certificates and decided-block-data tables; the collected decided keys are
returned. -/
def StoreModel.prune (st : StoreModel) (retain : Nat) :
    StoreModel × List Nat :=
  let undecided1 := st.undecidedProposals.filter
    (fun e => ¬ undecidedKeyBelow e.1 retain)
  let ublock1 := st.undecidedBlockData.filter
    (fun e => ¬ undecidedKeyBelow e.1 retain)
  let pruned := (st.decidedValues.filter (fun e => e.1 < retain)).map Prod.fst
  let decided1 := st.decidedValues.filter (fun e => ¬ e.1 ∈ pruned)
  let certs1 := st.certificates.filter (fun e => ¬ e.1 ∈ pruned)
  let dblock1 := st.decidedBlockData.filter (fun e => ¬ e.1 ∈ pruned)
  (⟨decided1, certs1, undecided1, dblock1, ublock1⟩, pruned)

/-- `Db::max_decided_value_height`: the last (greatest) key of the
decided-values table, if any. (The function body is present only as a
comment in `src/store.rs`; it is modelled from that comment and the spec's
"u64 max decided height".) -/
def StoreModel.maxDecidedValueHeight (st : StoreModel) : Option Nat :=
  (st.decidedValues.map Prod.fst).max?

/-! ## Node state and the state machine (`src/state.rs`) -/

/-- `MAX_HISTORY_LENGTH = 25`: the number of blocks kept in history. -/
def MAX_HISTORY_LENGTH : Nat := 25

/-- The fields of `State` driven by the embedded operations: the store, the
current height and round, the node's address and the stream nonce. -/
structure NodeState where
  store : StoreModel
  currentHeight : Nat
  currentRound : MRound
  address : Bytes
  streamNonce : Nat
deriving DecidableEq, Repr

/-- Modelled from the spec: `ValidatorSet::get_by_address`
(`src/malachite_types/validator_set.rs` is not in the source tree). The
validator set maps validator addresses to Ed25519 public keys; the lookup
returns the public key of the validator with the given address, if present. -/
abbrev ValidatorSet := List (Bytes × Bytes)

/-- Look up a validator's public key by address. -/
def getByAddress (vs : ValidatorSet) (a : Bytes) : Option Bytes :=
  alookup vs a

/-- `SignatureVerificationError` (`src/state.rs`). -/
inductive SigError where
  | missingFinPart : SigError
  | proposerNotFound : SigError
  | invalidSignature : SigError
deriving DecidableEq, Repr

/-- One step of the Keccak-256 hasher traversal in
`State::verify_proposal_signature`: an `Init` part contributes the
big-endian height (`as_u64`) and big-endian round (`as_i64`), a `Data`
part contributes its raw bytes, a `Fin` part contributes nothing. -/
def sigStep (acc : Bytes) (p : PPart) : Bytes :=
  match p with
  | .initP h r _ => acc ++ beBytes8 h ++ beBytesI64 r.asI64
  | .dataP b => acc ++ b
  | .finP _ => acc

/-- The byte string accumulated by the hasher over the whole traversal. -/
def sigHashInput (parts : List PPart) : Bytes :=
  parts.foldl sigStep []

/-- One step of the signature extraction in the same traversal: a `Fin`
part overwrites the signature seen so far. -/
def finStep (acc : Option Bytes) (p : PPart) : Option Bytes :=
  match p with | .finP s => some s | _ => acc

/-- The signature extracted by the traversal: the last `Fin` part's
signature, if any. -/
def extractFinSignature (parts : List PPart) : Option Bytes :=
  parts.foldl finStep none

/-- `State::verify_proposal_signature`: recompute the Keccak-256 of the
traversal bytes, take the last `Fin` signature (missing `Fin` is an error),
look up the proposer's public key (unknown proposer is an error), and
verify the signature over the hash. -/
def verifyProposalSignature (c : Crypto) (vs : ValidatorSet) (parts : PParts) :
    Except SigError Unit :=
  let hash := c.keccak (sigHashInput parts.parts)
  match extractFinSignature parts.parts with
  | none => .error .missingFinPart
  | some sig =>
    match getByAddress vs parts.proposer with
    | none => .error .proposerNotFound
    | some pk =>
      if c.edVerify pk hash sig then .ok () else .error .invalidSignature

/-- `assemble_value_from_parts`: concatenate the bytes of all `Data` parts
and build the `ProposedValue` (valid round `Nil`, validity `Valid`). -/
def assembleValueFromParts (parts : PParts) : PValue × Bytes :=
  let data := (parts.parts.filterMap
    (fun p => match p with | .dataP b => some b | _ => none)).flatten
  (⟨parts.height, parts.round, .nil, parts.proposer, data, true⟩, data)

/-- `State::received_proposal_part`, from the point where the streams map
has been consulted. The result of `streams_map.insert` is passed in as
`insertResult` (the streaming module `src/streaming.rs` is not in the
source tree; completion is therefore an input, not recomputed).
The block type and its bincode decoding and `Block::is_valid` check are
abstract parameters (`decodeBlock` returning `none` models a decode error,
`isValid` returning `none` models an error inside `is_valid`).
The overall result is `none` for an `Err` return, and
`some (reply, state)` for `Ok(reply)` together with the resulting state. -/
def receivedProposalPart {Block : Type} (c : Crypto)
    (decodeBlock : Bytes → Option Block)
    (isValid : Nat → Block → Block → Option Bool)
    (vs : ValidatorSet) (st : NodeState) (insertResult : Option PParts) :
    Option (Option PValue × NodeState) :=
  match insertResult with
  | none => some (none, st)
  | some parts =>
    if parts.height < st.currentHeight then some (none, st)
    else
      match verifyProposalSignature c vs parts with
      | .error _ => some (none, st)
      | .ok _ =>
        let va := assembleValueFromParts parts
        match decodeBlock va.2 with
        | none => none
        | some block =>
          match st.store.getDecidedBlock (st.currentHeight - 1) with
          | none => some (none, st)
          | some prevBytes =>
            match decodeBlock prevBytes with
            | none => none
            | some prevBlock =>
              match isValid st.currentHeight block prevBlock with
              | none => none
              | some false => some (none, st)
              | some true =>
                let store1 := st.store.insertUndecidedProposal va.1
                let store2 := store1.insertUndecidedBlockData parts.height
                  parts.round va.2
                some (some va.1, { st with store := store2 })

/-- `State::commit`: look up the undecided proposal at the certificate's
height and round (if absent, log and return `Ok(())` with nothing written);
store the decided value and certificate; if block data exists at the
certificate's (height, round), store it as decided block data; prune at
`certificate.height - MAX_HISTORY_LENGTH` (saturating); increment the
current height and reset the current round to 0. -/
def commit (st : NodeState) (cert : Certificate) : NodeState :=
  match st.store.getUndecidedProposal cert.height cert.round with
  | none => st
  | some proposal =>
    let store1 := st.store.insertDecidedValue cert proposal.value
    let store2 :=
      match store1.getBlockData cert.height cert.round with
      | some data => store1.insertDecidedBlockData cert.height data
      | none => store1
    let store3 := (store2.prune (cert.height - MAX_HISTORY_LENGTH)).1
    { st with
        store := store3
        currentHeight := st.currentHeight + 1
        currentRound := .val 0 }

/-- `State::stream_id`: big-endian current height (8 bytes), big-endian
current round `as_u32` (4 bytes), big-endian stream nonce (4 bytes). The
round is passed as the `u32` the code unwraps. -/
def streamIdBytes (height : Nat) (round : Nat) (nonce : Nat) : Bytes :=
  beBytes8 height ++ (beBytes8 round).drop 4 ++ (beBytes8 nonce).drop 4

/-- `State::make_proposal_parts`: an `Init` part carrying the value's
height and round and the node's address, one `Data` part per
`CHUNK_SIZE`-chunk of the block bytes, and a `Fin` part whose signature
signs the Keccak-256 of big-endian height, big-endian round (`as_i64`) and
the chunk bytes in order. -/
def makeProposalParts (c : Crypto) (st : NodeState) (height : Nat)
    (round : MRound) (data : Bytes) : List PPart :=
  let chunks := chunksOf data
  let hashInput := beBytes8 height ++ beBytesI64 round.asI64 ++ chunks.flatten
  PPart.initP height round st.address
    :: chunks.map PPart.dataP
    ++ [PPart.finP (c.edSign (c.keccak hashInput))]

/-- `State::stream_proposal`: wrap each proposal part in a stream message
with consecutive sequence numbers starting at 0, all under one fresh stream
id, and append the end-of-stream marker as the last message. -/
def streamProposal (c : Crypto) (st : NodeState) (height : Nat)
    (round : MRound) (data : Bytes) : List SMessage :=
  let parts := makeProposalParts c st height round data
  let sid := streamIdBytes st.currentHeight
    (match st.currentRound with | .val r => r | .nil => 0) st.streamNonce
  (parts.enum.map (fun pi => ⟨sid, pi.1, .dataC pi.2⟩))
    ++ [⟨sid, parts.length, .finC⟩]

/-! ## Block header hashing (`src/header.rs`) -/

/-- The `Header` fields that `compute_block_hash` reads, plus the stored
`block_hash`. `block_number` is the Rust `usize` (64-bit). -/
structure Header where
  blockNumber : Nat
  timestamp : Nat
  blockHash : Bytes
  parentHash : Bytes
  parentFinalityHash : Bytes
  lastBlockNumber : Nat
  dataHash : Bytes
  proposerAddress : Bytes
deriving DecidableEq, Repr

/-- One byte rendered by `{:02X}` (uppercase hexadecimal, two digits):
the ASCII codes of the two hex digits. -/
def hexUpperByte (b : Nat) : Bytes :=
  [(if b / 16 % 16 < 10 then 48 + b / 16 % 16 else 55 + b / 16 % 16),
   (if b % 16 < 10 then 48 + b % 16 else 55 + b % 16)]

/-- `Address`'s `Display` implementation
(`src/malachite_types/address.rs` lines 39-46): every byte of the address
printed as two uppercase hex digits; `to_string().as_bytes()` is the ASCII
encoding of that string. -/
def addressDisplayBytes (addr : Bytes) : Bytes :=
  (addr.map hexUpperByte).flatten

/-- The byte string fed to the SHA3-256 hasher by
`Header::compute_block_hash`: little-endian `block_number`, `parent_hash`,
`data_hash`, then the bytes of the address's `Display` string. -/
def blockHashPreimage (h : Header) : Bytes :=
  leBytes8 h.blockNumber ++ h.parentHash ++ h.dataHash
    ++ addressDisplayBytes h.proposerAddress

/-- `Header::compute_block_hash`: SHA3-256 of the preimage. -/
def computeBlockHash (c : Crypto) (h : Header) : Bytes :=
  c.sha3 (blockHashPreimage h)

/-- `Header::new`: build the header with an empty `block_hash`, then store
`compute_block_hash` into the `block_hash` field. -/
def headerNew (c : Crypto) (blockNumber timestamp lastBlockNumber : Nat)
    (dataHash : Bytes) (proposerAddress : Bytes)
    (parentFinalityHash parentHash : Bytes) : Header :=
  let h : Header := ⟨blockNumber, timestamp, [], parentHash,
    parentFinalityHash, lastBlockNumber, dataHash, proposerAddress⟩
  { h with blockHash := computeBlockHash c h }

/-- The hasher input the claim describes: the proposer address appended as
its 20 raw bytes (this is the claim's wording, not the code's behaviour;
kept for comparison with `blockHashPreimage`). -/
def claimedBlockHashPreimage (h : Header) : Bytes :=
  leBytes8 h.blockNumber ++ h.parentHash ++ h.dataHash ++ h.proposerAddress

/-! ## RPC `blockNumber` (`src/rpc.rs`) -/

/-- `Height::default()` is `Height(1)` (`src/malachite_types/height.rs`
lines 28-32). -/
def heightDefault : Nat := 1

/-- `MikanApiServer::block_number`: the store's maximum decided height,
or `Height::default()` when the store returns `None`, as a `u64`. -/
def blockNumberRpc (st : StoreModel) : Nat :=
  (st.maxDecidedValueHeight).getD heightDefault

/-! ## Helper lemmas -/

theorem alookup_ainsert_self {κ α : Type} [DecidableEq κ]
    (l : List (κ × α)) (k : κ) (v : α) : alookup (ainsert l k v) k = some v := by
  simp [alookup, ainsert, List.find?]

theorem alookup_filter_keep {κ α : Type} [DecidableEq κ]
    (l : List (κ × α)) (p : κ × α → Bool) (k : κ)
    (hp : ∀ v, p (k, v) = true) :
    alookup (l.filter p) k = alookup l k := by
  induction l with
  | nil => rfl
  | cons e rest ih =>
    by_cases hk : e.1 = k
    · have : p e = true := by
        have := hp e.2
        rwa [show (k, e.2) = e by rw [← hk]] at this
      simp [List.filter_cons, this, alookup, List.find?, hk]
    · by_cases hpe : p e = true
      · simpa [List.filter_cons, hpe, alookup, List.find?, hk] using ih
      · simpa [List.filter_cons, hpe, alookup, List.find?, hk] using ih

theorem prune_undecided_not_below (st : StoreModel) (retain : Nat) :
    ∀ e ∈ (st.prune retain).1.undecidedProposals, ¬ e.1.1 < retain := by
  intro e he
  simp only [StoreModel.prune, List.mem_filter, undecidedKeyBelow] at he
  simpa using he.2

theorem prune_undecided_block_not_below (st : StoreModel) (retain : Nat) :
    ∀ e ∈ (st.prune retain).1.undecidedBlockData, ¬ e.1.1 < retain := by
  intro e he
  simp only [StoreModel.prune, List.mem_filter, undecidedKeyBelow] at he
  simpa using he.2

theorem prune_result_mem (st : StoreModel) (retain : Nat) :
    ∀ h ∈ (st.prune retain).2,
      h < retain ∧ h ∈ st.decidedValues.map Prod.fst := by
  intro h hh
  simp only [StoreModel.prune, List.mem_map, List.mem_filter] at hh
  obtain ⟨e, ⟨hmem, hlt⟩, rfl⟩ := hh
  exact ⟨by simpa using hlt, List.mem_map.mpr ⟨e, hmem, rfl⟩⟩

theorem prune_result_complete (st : StoreModel) (retain : Nat) :
    ∀ h ∈ st.decidedValues.map Prod.fst, h < retain →
      h ∈ (st.prune retain).2 := by
  intro h hh hlt
  obtain ⟨e, hmem, rfl⟩ := List.mem_map.mp hh
  exact List.mem_map.mpr ⟨e, List.mem_filter.mpr ⟨hmem, by simpa using hlt⟩, rfl⟩

theorem prune_decided_not_below (st : StoreModel) (retain : Nat) :
    ∀ e ∈ (st.prune retain).1.decidedValues, ¬ e.1 < retain := by
  intro e he hlt
  have hf : (st.prune retain).1.decidedValues
      = st.decidedValues.filter (fun x => decide (¬ x.1 ∈ (st.prune retain).2)) :=
    rfl
  rw [hf] at he
  have h1 := (List.mem_filter.mp he).1
  have h2 := (List.mem_filter.mp he).2
  simp only [decide_eq_true_eq] at h2
  exact h2 (prune_result_complete st retain e.1 (List.mem_map.mpr ⟨e, h1, rfl⟩) hlt)

theorem prune_certificates_removed (st : StoreModel) (retain : Nat) :
    ∀ e ∈ (st.prune retain).1.certificates, ¬ e.1 ∈ (st.prune retain).2 := by
  intro e he
  simp only [StoreModel.prune, List.mem_filter] at he ⊢
  simpa using he.2

theorem prune_decided_block_removed (st : StoreModel) (retain : Nat) :
    ∀ e ∈ (st.prune retain).1.decidedBlockData,
      ¬ e.1 ∈ (st.prune retain).2 := by
  intro e he
  simp only [StoreModel.prune, List.mem_filter] at he ⊢
  simpa using he.2

theorem prune_alookup_decided_ge (st : StoreModel) (retain : Nat) (k : Nat)
    (hk : ¬ k < retain) :
    alookup (st.prune retain).1.decidedValues k = alookup st.decidedValues k := by
  apply alookup_filter_keep
  intro v
  simp only [decide_eq_true_eq]
  intro hmem
  exact absurd (prune_result_mem st retain k hmem).1 hk

theorem prune_alookup_certificates_ge (st : StoreModel) (retain : Nat)
    (k : Nat) (hk : ¬ k < retain) :
    alookup (st.prune retain).1.certificates k = alookup st.certificates k := by
  apply alookup_filter_keep
  intro v
  simp only [decide_eq_true_eq]
  intro hmem
  exact absurd (prune_result_mem st retain k hmem).1 hk

theorem prune_alookup_decided_block_ge (st : StoreModel) (retain : Nat)
    (k : Nat) (hk : ¬ k < retain) :
    alookup (st.prune retain).1.decidedBlockData k =
      alookup st.decidedBlockData k := by
  apply alookup_filter_keep
  intro v
  simp only [decide_eq_true_eq]
  intro hmem
  exact absurd (prune_result_mem st retain k hmem).1 hk

/-! ## Claim C3: `prune` -/

/-- C3 counterexample: on a store whose certificates table holds height 1
with no decided value, and with an undecided proposal at height 1,
`prune 2` deletes the undecided entry at height 1 but returns an empty
list (so the returned list is not the list of all deleted heights), and
the certificate key 1 < 2 is still present afterwards (so a decided-table
key below the retain height survives). -/
theorem prune_claim_counterexample :
    ((StoreModel.prune ⟨[], [(1, ⟨1, .val 0⟩)],
        [((1, .val 0), ⟨1, .val 0, .nil, [], [], true⟩)], [], []⟩ 2).2 = [] ∧
     (StoreModel.prune ⟨[], [(1, ⟨1, .val 0⟩)],
        [((1, .val 0), ⟨1, .val 0, .nil, [], [], true⟩)], [], []⟩ 2).1.undecidedProposals
       = [] ∧
     (StoreModel.prune ⟨[], [(1, ⟨1, .val 0⟩)],
        [((1, .val 0), ⟨1, .val 0, .nil, [], [], true⟩)], [], []⟩ 2).1.certificates
       = [(1, ⟨1, .val 0⟩)]) := by
  decide

/-- C3 (amended): in a single transaction, `prune(retain)` removes every
undecided-proposal and undecided-block-data key with height < retain and
every decided-values key with height < retain; the returned list is exactly
the list of decided-values heights below retain; and the certificates and
decided-block-data entries at those returned (decided) heights are removed. -/
theorem prune_spec (st : StoreModel) (retain : Nat) :
    (∀ e ∈ (st.prune retain).1.undecidedProposals, ¬ e.1.1 < retain) ∧
    (∀ e ∈ (st.prune retain).1.undecidedBlockData, ¬ e.1.1 < retain) ∧
    (∀ e ∈ (st.prune retain).1.decidedValues, ¬ e.1 < retain) ∧
    (∀ h ∈ (st.prune retain).2,
       h < retain ∧ h ∈ st.decidedValues.map Prod.fst) ∧
    (∀ h ∈ st.decidedValues.map Prod.fst, h < retain →
       h ∈ (st.prune retain).2) ∧
    (∀ e ∈ (st.prune retain).1.certificates, ¬ e.1 ∈ (st.prune retain).2) ∧
    (∀ e ∈ (st.prune retain).1.decidedBlockData,
       ¬ e.1 ∈ (st.prune retain).2) :=
  ⟨prune_undecided_not_below st retain,
   prune_undecided_block_not_below st retain,
   prune_decided_not_below st retain,
   prune_result_mem st retain,
   prune_result_complete st retain,
   prune_certificates_removed st retain,
   prune_decided_block_removed st retain⟩

/-! ## Claim C4: transaction pool `pop_top` -/

/-- C4: the pool is a `SortedVec` kept ascending by gas price, and
`get_top_transaction` drains the first element, so on the pool built by
pushing transactions with gas prices 1 and 2 it removes and returns the
gas-price-1 transaction even though a gas-price-2 transaction is present:
the popped transaction's gas price is minimal, not maximal. -/
theorem get_top_transaction_returns_min_gas_price :
    poolPush ⟨[], [], [], 0, [], 0, 2, []⟩
        (poolPush ⟨[], [], [], 0, [], 0, 1, []⟩ []) =
      [⟨[], [], [], 0, [], 0, 1, []⟩, ⟨[], [], [], 0, [], 0, 2, []⟩] ∧
    getTopTransaction
        [⟨[], [], [], 0, [], 0, 1, []⟩, ⟨[], [], [], 0, [], 0, 2, []⟩] =
      (some ⟨[], [], [], 0, [], 0, 1, []⟩, [⟨[], [], [], 0, [], 0, 2, []⟩]) ∧
    (⟨[], [], [], 0, [], 0, 1, []⟩ : Transaction).gasPrice <
      (⟨[], [], [], 0, [], 0, 2, []⟩ : Transaction).gasPrice ∧
    getTopTransaction [] = (none, []) := by
  decide

/-! ## Claim C6: `commit` without an undecided proposal -/

/-- C6: if no undecided proposal exists at the certificate's height and
round, `commit` returns without error, writes nothing to any store table,
and leaves the current height and round unchanged (the resulting state is
exactly the input state). -/
theorem commit_missing_proposal_noop (st : NodeState) (cert : Certificate)
    (h : st.store.getUndecidedProposal cert.height cert.round = none) :
    commit st cert = st := by
  simp [commit, h]

/-- C6 witness: on the empty store, committing certificate (1, 0) finds no
undecided proposal and leaves the state unchanged. -/
theorem commit_missing_proposal_noop_witness :
    (NodeState.mk StoreModel.empty 1 (.val 0) [] 0).store.getUndecidedProposal
        (Certificate.mk 1 (.val 0)).height (Certificate.mk 1 (.val 0)).round = none ∧
    commit (NodeState.mk StoreModel.empty 1 (.val 0) [] 0)
        (Certificate.mk 1 (.val 0)) =
      NodeState.mk StoreModel.empty 1 (.val 0) [] 0 :=
  ⟨by decide, commit_missing_proposal_noop _ _ (by decide)⟩

/-! ## Claim C7: `Transaction::validate` -/

/-- C7: for every transaction of the Rust type (whose blob array has length
4), `validate()` is true exactly when the Keccak-256 digest of `to_bytes`
equals the cached hash field and the sender public key's signature
verification over that digest succeeds. -/
theorem transaction_validate_iff (c : Crypto) (tx : Transaction)
    (h4 : tx.data.length = 4) :
    tx.validate c = true ↔
      tx.hash = c.keccak tx.toBytes ∧
        c.edVerify tx.txFrom (c.keccak tx.toBytes) tx.signature = true := by
  simp [Transaction.validate, h4]

/-- C7 witness: a concrete transaction with four empty blobs under the
trivial crypto record validates, and both sides of the equivalence hold. -/
theorem transaction_validate_iff_witness :
    (Transaction.mk [] [] [] 0 [[], [], [], []] 0 0 []).data.length = 4 ∧
    ((Transaction.mk [] [] [] 0 [[], [], [], []] 0 0 []).validate trivialCrypto
        = true ↔
      (Transaction.mk [] [] [] 0 [[], [], [], []] 0 0 []).hash =
          trivialCrypto.keccak
            (Transaction.mk [] [] [] 0 [[], [], [], []] 0 0 []).toBytes ∧
        trivialCrypto.edVerify
            (Transaction.mk [] [] [] 0 [[], [], [], []] 0 0 []).txFrom
            (trivialCrypto.keccak
              (Transaction.mk [] [] [] 0 [[], [], [], []] 0 0 []).toBytes)
            (Transaction.mk [] [] [] 0 [[], [], [], []] 0 0 []).signature
          = true) :=
  ⟨by decide, transaction_validate_iff trivialCrypto _ (by decide)⟩

theorem alookup_ainsertIfAbsent_none {κ α : Type} [DecidableEq κ]
    (l : List (κ × α)) (k : κ) (v : α) (h : alookup l k = none) :
    alookup (ainsertIfAbsent l k v) k = some v := by
  unfold ainsertIfAbsent
  rw [h]
  simp [alookup, List.find?]

/-! ## Claim C5: `commit` with an undecided proposal -/

/-- C5 counterexample: with current height 5, an undecided proposal at
certificate (height 1, round 0) and no block data anywhere, `commit`
succeeds but leaves `current_height = 6`, which is not
`certificate.height + 1 = 2`, and stores nothing under
`decided_block_data[1]`. -/
theorem commit_claim_counterexample :
    (commit
        (NodeState.mk
          (StoreModel.mk [] [] [((1, .val 0), ⟨1, .val 0, .nil, [], [], true⟩)]
            [] [])
          5 (.val 0) [] 0)
        (Certificate.mk 1 (.val 0))).currentHeight ≠
      (Certificate.mk 1 (.val 0)).height + 1 ∧
    alookup
        (commit
          (NodeState.mk
            (StoreModel.mk [] [] [((1, .val 0), ⟨1, .val 0, .nil, [], [], true⟩)]
              [] [])
            5 (.val 0) [] 0)
          (Certificate.mk 1 (.val 0))).store.decidedBlockData
        (Certificate.mk 1 (.val 0)).height = none := by
  decide

/-- C5 (amended): if `commit(certificate)` runs when an undecided proposal
exists at (certificate.height, certificate.round), then afterwards the
decided value and the certificate are stored at certificate.height; if
block bytes exist for (certificate.height, certificate.round) and the
decided-block-data key is free, they are stored under
`decided_block_data[certificate.height]`; the store has been pruned at
retain height certificate.height − MAX_HISTORY_LENGTH (saturating at 0,
MAX_HISTORY_LENGTH = 25), so no undecided or decided key below that height
remains; `current_height` is incremented by one (equal to
certificate.height + 1 whenever commit runs at the certificate's height);
and `current_round` is 0. -/
theorem commit_spec (st : NodeState) (cert : Certificate) (prop : PValue)
    (hprop : st.store.getUndecidedProposal cert.height cert.round = some prop) :
    alookup (commit st cert).store.decidedValues cert.height =
      some prop.value ∧
    alookup (commit st cert).store.certificates cert.height = some cert ∧
    (∀ data, st.store.getBlockData cert.height cert.round = some data →
       alookup st.store.decidedBlockData cert.height = none →
       alookup (commit st cert).store.decidedBlockData cert.height =
         some data) ∧
    (∀ e ∈ (commit st cert).store.undecidedProposals,
       ¬ e.1.1 < cert.height - MAX_HISTORY_LENGTH) ∧
    (∀ e ∈ (commit st cert).store.undecidedBlockData,
       ¬ e.1.1 < cert.height - MAX_HISTORY_LENGTH) ∧
    (∀ e ∈ (commit st cert).store.decidedValues,
       ¬ e.1 < cert.height - MAX_HISTORY_LENGTH) ∧
    (commit st cert).currentHeight = st.currentHeight + 1 ∧
    (commit st cert).currentRound = .val 0 := by
  have hret : ¬ cert.height < cert.height - MAX_HISTORY_LENGTH := by omega
  simp only [commit, hprop]
  cases hbd : (st.store.insertDecidedValue cert prop.value).getBlockData
      cert.height cert.round with
  | none =>
    refine ⟨?_, ?_, ?_, ?_, ?_, ?_, trivial, trivial⟩
    · rw [prune_alookup_decided_ge _ _ _ hret]
      exact alookup_ainsert_self _ _ _
    · rw [prune_alookup_certificates_ge _ _ _ hret]
      exact alookup_ainsert_self _ _ _
    · intro data hdata _
      exact absurd hbd (by rw [show (st.store.insertDecidedValue cert
        prop.value).getBlockData cert.height cert.round =
          st.store.getBlockData cert.height cert.round from rfl, hdata]; simp)
    · exact prune_undecided_not_below _ _
    · exact prune_undecided_block_not_below _ _
    · exact prune_decided_not_below _ _
  | some data0 =>
    refine ⟨?_, ?_, ?_, ?_, ?_, ?_, trivial, trivial⟩
    · rw [prune_alookup_decided_ge _ _ _ hret]
      exact alookup_ainsert_self _ _ _
    · rw [prune_alookup_certificates_ge _ _ _ hret]
      exact alookup_ainsert_self _ _ _
    · intro data hdata habsent
      have hdd : data0 = data := by
        have : st.store.getBlockData cert.height cert.round = some data0 := hbd
        rw [hdata] at this
        exact (Option.some.injEq _ _ ▸ this).symm
      subst hdd
      rw [prune_alookup_decided_block_ge _ _ _ hret]
      exact alookup_ainsertIfAbsent_none _ _ _ habsent
    · exact prune_undecided_not_below _ _
    · exact prune_undecided_block_not_below _ _
    · exact prune_decided_not_below _ _

/-- C5 witness: committing certificate (1, 0) on a state with current
height 1, an undecided proposal and block data at (1, 0): all amended
conclusions hold (decided value, certificate and block data stored at
height 1, pruning vacuous, height advanced to 2, round reset to 0). -/
theorem commit_spec_witness :
    (NodeState.mk
        (StoreModel.mk [] [] [((1, .val 0), ⟨1, .val 0, .nil, [7], [9, 9], true⟩)]
          [] [((1, .val 0), [9, 9])])
        1 (.val 0) [7] 0).store.getUndecidedProposal
      (Certificate.mk 1 (.val 0)).height (Certificate.mk 1 (.val 0)).round =
      some ⟨1, .val 0, .nil, [7], [9, 9], true⟩ ∧
    alookup
        (commit
          (NodeState.mk
            (StoreModel.mk [] []
              [((1, .val 0), ⟨1, .val 0, .nil, [7], [9, 9], true⟩)] []
              [((1, .val 0), [9, 9])])
            1 (.val 0) [7] 0)
          (Certificate.mk 1 (.val 0))).store.decidedValues
        (Certificate.mk 1 (.val 0)).height =
      some (⟨1, .val 0, .nil, [7], [9, 9], true⟩ : PValue).value :=
  ⟨by decide,
   (commit_spec
      (NodeState.mk
        (StoreModel.mk [] [] [((1, .val 0), ⟨1, .val 0, .nil, [7], [9, 9], true⟩)]
          [] [((1, .val 0), [9, 9])])
        1 (.val 0) [7] 0)
      (Certificate.mk 1 (.val 0)) ⟨1, .val 0, .nil, [7], [9, 9], true⟩
      (by decide)).1⟩

/-! ## Claim C8: `Header::compute_block_hash` -/

/-- C8 counterexample: for the header with block number 0, empty parent and
data hashes and the all-zero 20-byte proposer address, the byte string
hashed by `compute_block_hash` is not the claimed concatenation ending in
the 20 raw address bytes (the code appends the 40-character uppercase-hex
`Display` string of the address instead), and with the identity hash
function the resulting digests differ. -/
theorem block_hash_raw_address_counterexample :
    blockHashPreimage ⟨0, 0, [], [], [], 0, [], List.replicate 20 0⟩ ≠
      claimedBlockHashPreimage ⟨0, 0, [], [], [], 0, [], List.replicate 20 0⟩ ∧
    computeBlockHash idCrypto ⟨0, 0, [], [], [], 0, [], List.replicate 20 0⟩ ≠
      idCrypto.sha3
        (claimedBlockHashPreimage
          ⟨0, 0, [], [], [], 0, [], List.replicate 20 0⟩) := by
  decide

/-- C8 (amended): the computed block hash is SHA3-256 of the concatenation
of the little-endian block number, the parent hash, the data hash and the
ASCII bytes of the proposer address's uppercase-hex `Display` string (two
hex digits per address byte); and `Header::new` stores exactly this digest
in the header's `block_hash` field. -/
theorem compute_block_hash_spec (c : Crypto) (h : Header)
    (bn ts lbn : Nat) (dh pa pfh ph : Bytes) :
    computeBlockHash c h =
      c.sha3 (leBytes8 h.blockNumber ++ h.parentHash ++ h.dataHash
        ++ (h.proposerAddress.map hexUpperByte).flatten) ∧
    (headerNew c bn ts lbn dh pa pfh ph).blockHash =
      computeBlockHash c (headerNew c bn ts lbn dh pa pfh ph) :=
  ⟨rfl, rfl⟩

/-! ## Claim C9: RPC `blockNumber` -/

/-- C9 counterexample: on a store with no decided value, `blockNumber`
returns `Height::default()` = 1, not 0 as claimed. -/
theorem block_number_rpc_empty_counterexample :
    blockNumberRpc StoreModel.empty = 1 ∧
    blockNumberRpc StoreModel.empty ≠ 0 := by
  decide

/-- C9 (amended): `blockNumber` returns the maximum decided height in the
store as a u64, and returns `Height::default()` = 1 when the store contains
no decided value. -/
theorem block_number_rpc_spec (st : StoreModel) :
    (st.decidedValues = [] → blockNumberRpc st = heightDefault) ∧
    (st.decidedValues ≠ [] →
      blockNumberRpc st ∈ st.decidedValues.map Prod.fst ∧
      ∀ h ∈ st.decidedValues.map Prod.fst, h ≤ blockNumberRpc st) := by
  constructor
  · intro h
    simp [blockNumberRpc, StoreModel.maxDecidedValueHeight, h]
  · intro h
    have hne : st.decidedValues.map Prod.fst ≠ [] := by simpa using h
    cases hm : (st.decidedValues.map Prod.fst).max? with
    | none => exact absurd (List.max?_eq_none_iff.mp hm) hne
    | some m =>
      have := (List.max?_eq_some_iff Nat.le_refl max_choice
        (fun _ _ _ => Nat.max_le)).mp hm
      have hb : blockNumberRpc st = m := by
        simp [blockNumberRpc, StoreModel.maxDecidedValueHeight, hm]
      rw [hb]
      exact this

/-- C9 witness: on a store with decided values at heights 3, 5 and 4,
`blockNumber` returns a height that is in the decided table and bounds all
decided heights (it evaluates to 5). -/
theorem block_number_rpc_spec_witness :
    (StoreModel.mk [(3, []), (5, []), (4, [])] [] [] [] []).decidedValues ≠ [] ∧
    (blockNumberRpc (StoreModel.mk [(3, []), (5, []), (4, [])] [] [] [] []) ∈
        (StoreModel.mk [(3, []), (5, []), (4, [])] [] [] [] []).decidedValues.map
          Prod.fst ∧
      ∀ h ∈ (StoreModel.mk [(3, []), (5, []), (4, [])] [] [] [] []).decidedValues.map
          Prod.fst,
        h ≤ blockNumberRpc (StoreModel.mk [(3, []), (5, []), (4, [])] [] [] [] [])) :=
  ⟨by decide, (block_number_rpc_spec _).2 (by decide)⟩

/-! ## Claim C10: outdated proposals are ignored -/

/-- C10: if streaming reassembly completes a proposal whose `Init` height
is strictly below the node's current height, `received_proposal_part`
returns `Ok(None)` with the state (store, current height, current round)
unchanged — and this holds for every crypto record, so no signature
verification outcome is consulted. -/
theorem received_outdated_ignored {Block : Type} (c : Crypto)
    (dec : Bytes → Option Block) (iv : Nat → Block → Block → Option Bool)
    (vs : ValidatorSet) (st : NodeState) (parts : PParts)
    (h : parts.height < st.currentHeight) :
    receivedProposalPart c dec iv vs st (some parts) = some (none, st) := by
  simp [receivedProposalPart, h]

/-- C10 witness: a completed proposal at height 1 against current height 2
is ignored and the state is returned unchanged. -/
theorem received_outdated_ignored_witness :
    (PParts.mk 1 (.val 0) [] []).height <
      (NodeState.mk StoreModel.empty 2 (.val 0) [] 0).currentHeight ∧
    @receivedProposalPart Nat trivialCrypto (fun _ => none)
        (fun _ _ _ => none) [] (NodeState.mk StoreModel.empty 2 (.val 0) [] 0)
        (some (PParts.mk 1 (.val 0) [] [])) =
      some (none, NodeState.mk StoreModel.empty 2 (.val 0) [] 0) :=
  ⟨by decide,
   received_outdated_ignored trivialCrypto (fun _ => none) (fun _ _ _ => none)
     [] (NodeState.mk StoreModel.empty 2 (.val 0) [] 0)
     (PParts.mk 1 (.val 0) [] []) (by decide)⟩

/-! ## Helper lemmas for the signature-verification traversal -/

theorem sigStep_append (acc : Bytes) (p : PPart) :
    sigStep acc p = acc ++ sigStep [] p := by
  cases p <;> simp [sigStep]

theorem foldl_sigStep_acc (ps : List PPart) (acc : Bytes) :
    ps.foldl sigStep acc = acc ++ ps.foldl sigStep [] := by
  induction ps generalizing acc with
  | nil => simp
  | cons p ps ih =>
    rw [List.foldl_cons, List.foldl_cons, ih (sigStep acc p),
      ih (sigStep [] p), sigStep_append acc p]
    simp [List.append_assoc]

theorem sigHashInput_cons (p : PPart) (ps : List PPart) :
    sigHashInput (p :: ps) = sigStep [] p ++ sigHashInput ps := by
  unfold sigHashInput
  rw [List.foldl_cons, foldl_sigStep_acc]

theorem sigHashInput_data_fin (chunks : List Bytes) (s : Bytes) :
    sigHashInput (chunks.map PPart.dataP ++ [PPart.finP s]) =
      chunks.flatten := by
  induction chunks with
  | nil => rfl
  | cons ch chs ih =>
    rw [List.map_cons, List.cons_append, sigHashInput_cons, ih]
    simp [sigStep]

theorem sigHashInput_shape (h : Nat) (r : MRound) (a : Bytes)
    (chunks : List Bytes) (s : Bytes) :
    sigHashInput (PPart.initP h r a :: chunks.map PPart.dataP
        ++ [PPart.finP s]) =
      beBytes8 h ++ beBytesI64 r.asI64 ++ chunks.flatten := by
  rw [List.cons_append, sigHashInput_cons, sigHashInput_data_fin]
  simp [sigStep, List.append_assoc]

theorem extractFinSignature_acc_of_tail (chunks : List Bytes) (s : Bytes)
    (acc : Option Bytes) :
    List.foldl finStep acc (chunks.map PPart.dataP ++ [PPart.finP s]) =
      some s := by
  induction chunks generalizing acc with
  | nil => rfl
  | cons ch chs ih =>
    rw [List.map_cons, List.cons_append, List.foldl_cons]
    exact ih (finStep acc (PPart.dataP ch))

theorem extractFinSignature_shape (h : Nat) (r : MRound) (a : Bytes)
    (chunks : List Bytes) (s : Bytes) :
    extractFinSignature (PPart.initP h r a :: chunks.map PPart.dataP
        ++ [PPart.finP s]) = some s := by
  unfold extractFinSignature
  rw [List.cons_append, List.foldl_cons]
  exact extractFinSignature_acc_of_tail chunks s (finStep none (PPart.initP h r a))

theorem verifyProposalSignature_shape (c : Crypto) (vs : ValidatorSet)
    (pp : PParts) (chunks : List Bytes) (sig : Bytes)
    (hshape : pp.parts = PPart.initP pp.height pp.round pp.proposer
        :: chunks.map PPart.dataP ++ [PPart.finP sig]) :
    verifyProposalSignature c vs pp =
      match getByAddress vs pp.proposer with
      | none => .error .proposerNotFound
      | some pk =>
        if c.edVerify pk (c.keccak (beBytes8 pp.height
            ++ beBytesI64 pp.round.asI64 ++ chunks.flatten)) sig
        then .ok () else .error .invalidSignature := by
  unfold verifyProposalSignature
  rw [hshape, extractFinSignature_shape, sigHashInput_shape]

/-! ## Claim C1: accepted proposals have verified signatures -/

/-- C1: for a completed part sequence of the canonical shape (`Init`, then
data chunks, then `Fin`), if `received_proposal_part` accepts the proposal
(returns a non-`None` value) then the proposer's public key is in the
validator set and Ed25519 verification of the `Fin` signature over
Keccak-256 of (big-endian height, big-endian round, concatenated chunks)
succeeds; and a part sequence whose proposer is unknown, whose signature
fails verification, or (for any completed sequence) whose `Fin` part is
missing, is rejected with `None` and an unchanged state (no store write). -/
theorem received_accepted_signature {Block : Type} (c : Crypto)
    (dec : Bytes → Option Block) (iv : Nat → Block → Block → Option Bool)
    (vs : ValidatorSet) (st : NodeState) (pp : PParts)
    (chunks : List Bytes) (sig : Bytes)
    (hshape : pp.parts = PPart.initP pp.height pp.round pp.proposer
        :: chunks.map PPart.dataP ++ [PPart.finP sig]) :
    (∀ v st',
       receivedProposalPart c dec iv vs st (some pp) = some (some v, st') →
       ∃ pk, getByAddress vs pp.proposer = some pk ∧
         c.edVerify pk (c.keccak (beBytes8 pp.height
           ++ beBytesI64 pp.round.asI64 ++ chunks.flatten)) sig = true) ∧
    (getByAddress vs pp.proposer = none →
       receivedProposalPart c dec iv vs st (some pp) = some (none, st)) ∧
    (∀ pk, getByAddress vs pp.proposer = some pk →
       c.edVerify pk (c.keccak (beBytes8 pp.height
         ++ beBytesI64 pp.round.asI64 ++ chunks.flatten)) sig = false →
       receivedProposalPart c dec iv vs st (some pp) = some (none, st)) ∧
    (∀ qq : PParts, extractFinSignature qq.parts = none →
       receivedProposalPart c dec iv vs st (some qq) = some (none, st)) := by
  have hv := verifyProposalSignature_shape c vs pp chunks sig hshape
  refine ⟨?_, ?_, ?_, ?_⟩
  · intro v st' hacc
    by_cases hout : pp.height < st.currentHeight
    · simp [receivedProposalPart, hout] at hacc
    · cases hvs : getByAddress vs pp.proposer with
      | none =>
        rw [hvs] at hv
        simp [receivedProposalPart, hout, hv] at hacc
      | some pk =>
        by_cases hev : c.edVerify pk (c.keccak (beBytes8 pp.height
            ++ beBytesI64 pp.round.asI64 ++ chunks.flatten)) sig = true
        · exact ⟨pk, rfl, hev⟩
        · rw [hvs] at hv
          rw [Bool.not_eq_true] at hev
          simp only [hev, Bool.false_eq_true, if_false] at hv
          simp [receivedProposalPart, hout, hv] at hacc
  · intro hvs
    rw [hvs] at hv
    by_cases hout : pp.height < st.currentHeight
    · simp [receivedProposalPart, hout]
    · simp [receivedProposalPart, hout, hv]
  · intro pk hvs hev
    rw [hvs] at hv
    simp only [hev, Bool.false_eq_true, if_false] at hv
    by_cases hout : pp.height < st.currentHeight
    · simp [receivedProposalPart, hout]
    · simp [receivedProposalPart, hout, hv]
  · intro qq hfin
    have hv' : verifyProposalSignature c vs qq = .error .missingFinPart := by
      unfold verifyProposalSignature
      rw [hfin]
    by_cases hout : qq.height < st.currentHeight
    · simp [receivedProposalPart, hout]
    · simp [receivedProposalPart, hout, hv']

/-- C1 witness: a concrete completed sequence (`Init` at height 1, no data
chunks, `Fin`) against a validator set containing the proposer, with the
trivial crypto record: the shape hypothesis holds and all four conclusions
follow by applying the theorem. -/
theorem received_accepted_signature_witness :
    (PParts.mk 1 (.val 0) [5] [PPart.initP 1 (.val 0) [5], PPart.finP [2]]).parts
      = PPart.initP 1 (.val 0) [5] :: List.map PPart.dataP []
          ++ [PPart.finP [2]] ∧
    ((∀ v st',
       @receivedProposalPart Nat trivialCrypto (fun _ => some 0)
           (fun _ _ _ => some true) [([5], [6])]
           (NodeState.mk (StoreModel.mk [] [] [] [(0, [1])] []) 1 (.val 0) [] 0)
           (some (PParts.mk 1 (.val 0) [5]
             [PPart.initP 1 (.val 0) [5], PPart.finP [2]])) =
           some (some v, st') →
       ∃ pk, getByAddress [([5], [6])] [5] = some pk ∧
         trivialCrypto.edVerify pk (trivialCrypto.keccak (beBytes8 1
           ++ beBytesI64 (MRound.val 0).asI64 ++ List.flatten [])) [2] = true) ∧
    (getByAddress [([5], [6])] [5] = none →
       @receivedProposalPart Nat trivialCrypto (fun _ => some 0)
           (fun _ _ _ => some true) [([5], [6])]
           (NodeState.mk (StoreModel.mk [] [] [] [(0, [1])] []) 1 (.val 0) [] 0)
           (some (PParts.mk 1 (.val 0) [5]
             [PPart.initP 1 (.val 0) [5], PPart.finP [2]])) =
         some (none,
           NodeState.mk (StoreModel.mk [] [] [] [(0, [1])] []) 1 (.val 0) [] 0)) ∧
    (∀ pk, getByAddress [([5], [6])] [5] = some pk →
       trivialCrypto.edVerify pk (trivialCrypto.keccak (beBytes8 1
         ++ beBytesI64 (MRound.val 0).asI64 ++ List.flatten [])) [2] = false →
       @receivedProposalPart Nat trivialCrypto (fun _ => some 0)
           (fun _ _ _ => some true) [([5], [6])]
           (NodeState.mk (StoreModel.mk [] [] [] [(0, [1])] []) 1 (.val 0) [] 0)
           (some (PParts.mk 1 (.val 0) [5]
             [PPart.initP 1 (.val 0) [5], PPart.finP [2]])) =
         some (none,
           NodeState.mk (StoreModel.mk [] [] [] [(0, [1])] []) 1 (.val 0) [] 0)) ∧
    (∀ qq : PParts, extractFinSignature qq.parts = none →
       @receivedProposalPart Nat trivialCrypto (fun _ => some 0)
           (fun _ _ _ => some true) [([5], [6])]
           (NodeState.mk (StoreModel.mk [] [] [] [(0, [1])] []) 1 (.val 0) [] 0)
           (some qq) =
         some (none,
           NodeState.mk (StoreModel.mk [] [] [] [(0, [1])] []) 1 (.val 0) [] 0))) :=
  ⟨by decide,
   received_accepted_signature trivialCrypto (fun _ => some 0)
     (fun _ _ _ => some true) [([5], [6])]
     (NodeState.mk (StoreModel.mk [] [] [] [(0, [1])] []) 1 (.val 0) [] 0)
     (PParts.mk 1 (.val 0) [5] [PPart.initP 1 (.val 0) [5], PPart.finP [2]])
     [] [2] (by decide)⟩

/-! ## Helper lemmas for chunking -/

theorem chunksOf_flatten (l : Bytes) : (chunksOf l).flatten = l := by
  induction l using chunksOf.induct with
  | case1 =>
    rw [chunksOf]
    simp
  | case2 l hl ih =>
    rw [chunksOf, if_neg hl]
    simp only [List.flatten_cons, ih, List.take_append_drop]

theorem chunksOf_length (l : Bytes) :
    (chunksOf l).length = (l.length + CHUNK_SIZE - 1) / CHUNK_SIZE := by
  induction l using chunksOf.induct with
  | case1 =>
    rw [chunksOf]
    simp only [if_pos rfl, List.length_nil]
    decide
  | case2 l hl ih =>
    rw [chunksOf, if_neg hl]
    simp only [List.length_cons, ih, List.length_drop]
    have hpos : 0 < l.length := List.length_pos.mpr hl
    have hc : 0 < CHUNK_SIZE := by decide
    by_cases hle : l.length ≤ CHUNK_SIZE
    · have h1 : l.length - CHUNK_SIZE = 0 := by omega
      rw [h1]
      have h3 : (0 + CHUNK_SIZE - 1) / CHUNK_SIZE = 0 := by decide
      rw [h3]
      have h2 : l.length + CHUNK_SIZE - 1 = (l.length - 1) + CHUNK_SIZE := by
        omega
      rw [h2, Nat.add_div_right _ hc,
        Nat.div_eq_of_lt (show l.length - 1 < CHUNK_SIZE by omega)]
    · have h2 : l.length + CHUNK_SIZE - 1 =
          (l.length - CHUNK_SIZE + CHUNK_SIZE - 1) + CHUNK_SIZE := by omega
      rw [h2, Nat.add_div_right _ hc]

theorem chunksOf_mem_length_le (l : Bytes) :
    ∀ ch ∈ chunksOf l, ch.length ≤ CHUNK_SIZE := by
  induction l using chunksOf.induct with
  | case1 =>
    rw [chunksOf]
    simp
  | case2 l hl ih =>
    rw [chunksOf, if_neg hl]
    intro ch hch
    rcases List.mem_cons.mp hch with rfl | h
    · simp
    · exact ih ch h

theorem chunksOf_dropLast_length (l : Bytes) :
    ∀ ch ∈ (chunksOf l).dropLast, ch.length = CHUNK_SIZE := by
  induction l using chunksOf.induct with
  | case1 =>
    rw [chunksOf]
    simp
  | case2 l hl ih =>
    rw [chunksOf, if_neg hl]
    by_cases hrest : chunksOf (l.drop CHUNK_SIZE) = []
    · rw [hrest]
      simp
    · rw [List.dropLast_cons_of_ne_nil hrest]
      intro ch hch
      rcases List.mem_cons.mp hch with rfl | h
      · have hgt : CHUNK_SIZE < l.length := by
          by_contra hle2
          have hde : l.drop CHUNK_SIZE = [] :=
            List.drop_eq_nil_of_le (by omega)
          rw [chunksOf, if_pos hde] at hrest
          exact hrest rfl
        simp only [List.length_take]
        omega
      · exact ih ch h

theorem map_content_enum (sid : Bytes) (ps : List PPart) :
    ((ps.enum.map
        (fun pi => SMessage.mk sid pi.1 (SContent.dataC pi.2))).map
      SMessage.content) = ps.map SContent.dataC := by
  rw [List.map_map]
  rw [show (SMessage.content ∘ fun pi : Nat × PPart =>
      SMessage.mk sid pi.1 (SContent.dataC pi.2)) =
    (SContent.dataC ∘ Prod.snd) from rfl]
  rw [← List.map_map, List.enum_map_snd]

theorem map_sequence_enum (sid : Bytes) (ps : List PPart) :
    ((ps.enum.map
        (fun pi => SMessage.mk sid pi.1 (SContent.dataC pi.2))).map
      SMessage.sequence) = List.range ps.length := by
  rw [List.map_map]
  rw [show (SMessage.sequence ∘ fun pi : Nat × PPart =>
      SMessage.mk sid pi.1 (SContent.dataC pi.2)) = Prod.fst from rfl]
  exact List.enum_map_fst ps

/-! ## Claim C2: `stream_proposal` -/

/-- C2: `stream_proposal` emits, under a single stream id, the `Init` part
first, then one `Data` part per `CHUNK_SIZE`-chunk of the payload, then the
`Fin` part (followed by the stream end marker); the chunks concatenate back
to the payload, number exactly ⌈L / CHUNK_SIZE⌉, and each has length
`CHUNK_SIZE` except possibly the last; the sequence numbers of the emitted
messages are 0, 1, 2, … in order. -/
theorem stream_proposal_spec (c : Crypto) (st : NodeState) (height : Nat)
    (round : MRound) (data : Bytes) :
    (streamProposal c st height round data).map SMessage.content =
      SContent.dataC (PPart.initP height round st.address)
        :: (chunksOf data).map (fun ch => SContent.dataC (PPart.dataP ch))
        ++ [SContent.dataC (PPart.finP (c.edSign (c.keccak (beBytes8 height
              ++ beBytesI64 round.asI64 ++ (chunksOf data).flatten)))),
            SContent.finC] ∧
    (chunksOf data).flatten = data ∧
    (chunksOf data).length = (data.length + CHUNK_SIZE - 1) / CHUNK_SIZE ∧
    (∀ ch ∈ chunksOf data, ch.length ≤ CHUNK_SIZE) ∧
    (∀ ch ∈ (chunksOf data).dropLast, ch.length = CHUNK_SIZE) ∧
    (streamProposal c st height round data).map SMessage.sequence =
      List.range (streamProposal c st height round data).length ∧
    (∀ m ∈ streamProposal c st height round data,
       m.streamId = streamIdBytes st.currentHeight
         (match st.currentRound with | .val r => r | .nil => 0)
         st.streamNonce) := by
  refine ⟨?_, chunksOf_flatten data, chunksOf_length data,
    chunksOf_mem_length_le data, chunksOf_dropLast_length data, ?_, ?_⟩
  · simp only [streamProposal]
    rw [List.map_append, map_content_enum]
    simp only [makeProposalParts, List.map_cons, List.map_append,
      List.map_map, List.map_nil]
    simp [Function.comp, List.cons_append, List.append_assoc]
  · simp only [streamProposal]
    rw [List.map_append, map_sequence_enum]
    simp only [List.length_append, List.length_map, List.enum_length,
      List.length_cons, List.length_nil, List.map_cons, List.map_nil]
    rw [List.range_succ]
  · intro m hm
    simp only [streamProposal, List.mem_append, List.mem_map,
      List.mem_singleton] at hm
    rcases hm with ⟨pi, _, rfl⟩ | rfl
    · rfl
    · rfl

end Mikan
